import Mathlib

set_option maxHeartbeats 1000000
set_option maxRecDepth 100000

/-!
Shallow embedding of the `xml-canonical` repository (crates `xml_tree` and
`qick-xml-mapper`) and proofs about it.

Modelling conventions:
- Rust `u8` / `u16` / `usize` values are `Nat`; arithmetic that can overflow
  in Rust is written with an explicit `% 2^w` (release-mode wrapping).
- `usize::MAX`, the sentinel node index, is `usizeMax = 2^64 - 1`.
- `Vec<T>` is `List T`; `BTreeMap` is an association list (keys are inserted
  only when absent, so first-match lookup models `BTreeMap::get` exactly;
  the per-tag attribute map uses an order-preserving sorted insert).
- Rust's `&mut` mutation is explicit state passing: mutating methods return
  the new `FlatTree` next to their Rust return value.
- Out-of-bounds `Vec` indexing (a Rust panic) is modelled by `Option`/`getD`;
  all theorems that could touch such an access carry the structure invariant
  (`depth` parallel to `nodes`) that the Rust type maintains by construction.
-/

def usizeMax : Nat := 2 ^ 64 - 1

-- ── Node types (src/xml_tree/src/tree.rs) ───────────────────────────

structure XAttribute where
  ns : Option Nat
  value : String
deriving DecidableEq

inductive XNode where
  | tag (ns : Option Nat) (name : String) (attributes : Option (List (String × XAttribute)))
  | text (content : String)
  | comment (content : String)
  | pi (target : String) (data : Option String)
deriving DecidableEq

instance : Inhabited XNode := ⟨XNode.text ""⟩

-- ── Flat tree ───────────────────────────────────────────────────────

structure FlatTree where
  nodes : List XNode
  depth : List Nat
  namespaces : List (String × String)
  namespace_map : List (String × Nat)
deriving DecidableEq

structure Node where
  index : Nat
deriving DecidableEq

/-- Lookup in the modelled `BTreeMap<Box<str>, usize>` (`namespace_map`). -/
def mapLookup : List (String × Nat) → String → Option Nat
  | [], _ => none
  | (k, v) :: rest, p => if k = p then some v else mapLookup rest p

def FlatTree.new : FlatTree := ⟨[], [], [], []⟩

def FlatTree.len (t : FlatTree) : Nat := t.nodes.length

def FlatTree.is_empty (t : FlatTree) : Bool := t.nodes.isEmpty

def FlatTree.depth_vector (t : FlatTree) : List Nat := t.depth

def FlatTree.as_node (t : FlatTree) : Node :=
  if t.len ≠ 0 then ⟨t.len - 1⟩ else ⟨usizeMax⟩

def FlatTree.node (t : FlatTree) (index : Nat) : Option Node :=
  if index < t.len then some ⟨index⟩ else none

def FlatTree.value (t : FlatTree) (index : Nat) : Option XNode :=
  t.nodes.get? index

/-- The match condition of the scan in `find_namespaced_node_by_name`:
`*target_name == **name && target_namespace == *namespace` on a `Tag`. -/
def matchesB (target_namespace : Option Nat) (target_name : String) : XNode → Bool
  | .tag ns name _ => decide (target_name = name) && decide (target_namespace = ns)
  | _ => false

def findNsAux (target_namespace : Option Nat) (target_name : String) :
    List XNode → Nat → Option Node
  | [], _ => none
  | x :: rest, i =>
    if matchesB target_namespace target_name x then some ⟨i⟩
    else findNsAux target_namespace target_name rest (i + 1)

/-- `FlatTree::find_namespaced_node_by_name`: linear scan for the first `Tag`
with the given local name and (optional) namespace id. -/
def FlatTree.find_namespaced_node_by_name (t : FlatTree)
    (target_namespace : Option Nat) (target_name : String) : Option Node :=
  findNsAux target_namespace target_name t.nodes 0

def findByNameAux (target_name : String) : List XNode → Nat → Option Node
  | [], _ => none
  | x :: rest, i =>
    match x with
    | .tag _ name _ =>
      if target_name = name then some ⟨i⟩ else findByNameAux target_name rest (i + 1)
    | _ => findByNameAux target_name rest (i + 1)

/-- `FlatTree::find_node_by_name`: scan ignoring the namespace. -/
def FlatTree.find_node_by_name (t : FlatTree) (target_name : String) : Option Node :=
  findByNameAux target_name t.nodes 0

/-- `FlatTree::find_namespace`: `prefix?` then map lookup, cast `as u16`. -/
def FlatTree.find_namespace (t : FlatTree) (p : Option String) : Option Nat :=
  match p with
  | none => none
  | some p => (mapLookup t.namespace_map p).map (· % 65536)

/-- Rust `str::contains(':')` over the string's characters. -/
def strContains (s : String) (c : Char) : Bool := s.data.contains c

def splitCharAux (c : Char) : List Char → List String
  | [] => [""]
  | x :: rest =>
    if x = c then "" :: splitCharAux c rest
    else
      match splitCharAux c rest with
      | [] => [String.mk [x]]
      | piece :: more => String.mk (x :: piece.data) :: more

/-- Rust `str::split(c)`: the separator-delimited pieces, in order. -/
def strSplit (s : String) (c : Char) : List String := splitCharAux c s.data

/-- `FlatTree::find_node`: on a name containing `:`, split at the first
separator and search with the resolved namespace; otherwise by name only.
(`split.next()?` failing is the dead `| _ => none` arm.) -/
def FlatTree.find_node (t : FlatTree) (target_name : String) : Option Node :=
  if strContains target_name ':' then
    match strSplit target_name ':' with
    | ns :: name :: _ =>
      t.find_namespaced_node_by_name (t.find_namespace (some ns)) name
    | _ => none
  else t.find_node_by_name target_name

-- ── Mutation ────────────────────────────────────────────────────────

/-- `FlatTree::push`: append at depth 1. -/
def FlatTree.push (t : FlatTree) (node : XNode) : Node × FlatTree :=
  let nodes := t.nodes ++ [node]
  (⟨nodes.length - 1⟩, { t with nodes := nodes, depth := t.depth ++ [1] })

/-- `FlatTree::push_depth`: append at the given (u8) depth. -/
def FlatTree.push_depth (t : FlatTree) (node : XNode) (d : Nat) : Node × FlatTree :=
  let nodes := t.nodes ++ [node]
  (⟨nodes.length - 1⟩, { t with nodes := nodes, depth := t.depth ++ [d] })

-- ── Namespace registry ──────────────────────────────────────────────

/-- `FlatTree::add_namespace`: first-write-wins registration returning the
id cast `as u16`; `None` when `namespaces.len() > u16::MAX`. -/
def FlatTree.add_namespace (t : FlatTree) (p uri : String) : Option Nat × FlatTree :=
  match mapLookup t.namespace_map p with
  | some index => (some (index % 65536), t)
  | none =>
    let id := t.namespaces.length
    if 65535 < id then (none, t)
    else (some (id % 65536),
      { t with namespaces := t.namespaces ++ [(p, uri)],
               namespace_map := (p, id) :: t.namespace_map })

/-- `FlatTree::get_namespace`: lookup by id. -/
def FlatTree.get_namespace (t : FlatTree) (id : Option Nat) : Option (String × String) :=
  match id with
  | none => none
  | some id => t.namespaces.get? id

-- ── Node cursor ─────────────────────────────────────────────────────

/-- Depth-array access `tree.depth[i]` (0 is the panic placeholder;
never reached under the parallel-arrays invariant). -/
def dAt (t : FlatTree) (i : Nat) : Nat := (t.depth.get? i).getD 0

def Node.is_sentinel (n : Node) : Bool := n.index == usizeMax

def Node.is_valid (n : Node) (t : FlatTree) : Bool :=
  !n.is_sentinel && decide (n.index < t.len)

def Node.depth (n : Node) (t : FlatTree) : Nat :=
  if n.is_sentinel || decide (t.len ≤ n.index) then 0 else dAt t n.index

def Node.value (n : Node) (t : FlatTree) : Option XNode := t.value n.index

/-- `Node::push`: append a child at `self.depth(tree) + 1` (u8 arithmetic). -/
def Node.push (n : Node) (t : FlatTree) (node : XNode) : Node × FlatTree :=
  let d := (n.depth t + 1) % 256
  t.push_depth node d

/-- `Node::compare_name`. -/
def Node.compare_name (n : Node) (t : FlatTree)
    (target_namespace : Option Nat) (target_name : String) : Bool :=
  match t.value n.index with
  | some node =>
    match node with
    | .tag ns name _ => decide (target_namespace = ns) && decide (target_name = name)
    | _ => false
  | none => false

def parentScan (t : FlatTree) (target : Nat) : Nat → Option Nat
  | 0 => if dAt t 0 = target then some 0 else none
  | j + 1 => if dAt t (j + 1) = target then some (j + 1) else parentScan t target j

/-- `Node::parent`: backward scan for the first node with depth `d - 1`. -/
def Node.parent (n : Node) (t : FlatTree) : Option Node :=
  let d := n.depth t
  if d = 0 then none
  else
    match n.index with
    | 0 => none
    | j + 1 => (parentScan t (d - 1) j).map Node.mk

/-- `Node::subtree_end`: scan forward while `i < len && depth[i] > d`. -/
def Node.subtree_end (n : Node) (t : FlatTree) : Nat :=
  if !(n.is_valid t) then 0
  else
    let d := dAt t n.index
    n.index + 1 +
      ((List.range' (n.index + 1) (t.len - (n.index + 1))).takeWhile
        (fun i => decide (d < dAt t i))).length

/-- `Node::children`: indices strictly inside the subtree at depth `d + 1`. -/
def Node.children (n : Node) (t : FlatTree) : List Node :=
  if !(n.is_valid t) then []
  else
    let target := (n.depth t + 1) % 256
    let e := n.subtree_end t
    ((List.range' (n.index + 1) (e - (n.index + 1))).filter
      (fun i => decide (dAt t i = target))).map Node.mk

/-- `Node::next_sibling`: node at `subtree_end` if it has the same depth. -/
def Node.next_sibling (n : Node) (t : FlatTree) : Option Node :=
  if !(n.is_valid t) then none
  else
    let d := n.depth t
    let e := n.subtree_end t
    if decide (e < t.len) && decide (dAt t e = d) then some ⟨e⟩ else none

def prevAux (t : FlatTree) (d : Nat) : Nat → Option Nat
  | 0 =>
    if dAt t 0 < d then none
    else if dAt t 0 = d then some 0
    else none
  | i + 1 =>
    if dAt t (i + 1) < d then none
    else if dAt t (i + 1) = d then some (i + 1)
    else prevAux t d i

/-- `Node::prev_sibling`: scan backward skipping deeper nodes. -/
def Node.prev_sibling (n : Node) (t : FlatTree) : Option Node :=
  if !(n.is_valid t) || n.index == 0 then none
  else (prevAux t (n.depth t) (n.index - 1)).map Node.mk

/-- `Node::descendants`: the contiguous slice `(index, subtree_end)`. -/
def Node.descendants (n : Node) (t : FlatTree) : List Node :=
  if !(n.is_valid t) then []
  else (List.range' (n.index + 1) (n.subtree_end t - (n.index + 1))).map Node.mk

/-- `Node::ancestors`: repeated `parent` calls, nearest first. -/
def Node.ancestors (n : Node) (t : FlatTree) : List Node :=
  match h : n.parent t with
  | none => []
  | some m => m :: m.ancestors t
termination_by n.index
decreasing_by
  have aux : ∀ (tgt j k : Nat), parentScan t tgt j = some k → k ≤ j := by
    intro tgt j
    induction j with
    | zero =>
      intro k hk
      unfold parentScan at hk
      split at hk
      · simp_all
      · simp_all
    | succ j ih =>
      intro k hk
      unfold parentScan at hk
      split at hk
      · simp only [Option.some.injEq] at hk
        omega
      · exact Nat.le_succ_of_le (ih k hk)
  unfold Node.parent at h
  split at h
  · simp at h
  · rename_i j hj
    dsimp only at h
    split at h
    · simp at h
    · simp only [Option.map_eq_some'] at h
      obtain ⟨k, hk, rfl⟩ := h
      have := aux _ _ _ hk
      simp only [hj]
      omega

-- ── Tree builder (src/qick-xml-mapper/src/quick_reader.rs) ──────────

/-- Decomposed tag data of a `quick_xml` `BytesStart`: the (already decoded)
optional prefix, local name, and the raw ordered attribute (key, value) list. -/
structure TagData where
  pfx : Option String
  localName : String
  attrs : List (String × String)
deriving DecidableEq

/-- The structural events consumed by `read` (the `quick_xml::events::Event`
variants the builder handles; `other` covers the ignored `_ => {}` arm). -/
inductive Event where
  | start (d : TagData)
  | endTag (localName : String) (pfx : Option String)
  | empty (d : TagData)
  | text (content : String)
  | comment (content : String)
  | pi (target : String) (content : String)
  | eof
  | other
deriving DecidableEq

/-- `format_tag_name`: split an attribute key on `:` into (prefix, local). -/
def format_tag_name (key : String) : Option String × String :=
  match key.splitOn ":" with
  | [p] => (none, p)
  | p :: name :: _ => (some p, name)
  | [] => (none, "")

/-- `BTreeMap::insert` on the sorted attribute map keyed by local name
(overwrites an existing key; keeps keys sorted). -/
def mapInsert : List (String × XAttribute) → String → XAttribute → List (String × XAttribute)
  | [], k, v => [(k, v)]
  | (k', v') :: rest, k, v =>
    if k < k' then (k, v) :: (k', v') :: rest
    else if k = k' then (k, v) :: rest
    else (k', v') :: mapInsert rest k v

/-- One iteration of the attribute loop in `build_tag`: state is
(attribute map, `ns_id`, tree). -/
def buildAttrStep (st : List (String × XAttribute) × Option Nat × FlatTree)
    (kv : String × String) : List (String × XAttribute) × Option Nat × FlatTree :=
  let (attributes, ns_id, tree) := st
  if kv.1 = "xmlns" then
    let (r, tree') := tree.add_namespace "" kv.2
    (attributes, r, tree')
  else if kv.1.startsWith "xmlns:" then
    let px := kv.1.drop 6
    let (_, tree') := tree.add_namespace px kv.2
    (attributes, ns_id, tree')
  else
    let (p, name) := format_tag_name kv.1
    (mapInsert attributes name ⟨tree.find_namespace p, kv.2⟩, ns_id, tree)

/-- `build_tag`: register the event's xmlns declarations, build the attribute
map, and resolve the tag's namespace as `ns_id.or(find_namespace(prefix))`. -/
def build_tag (t : FlatTree) (e : TagData) : XNode × FlatTree :=
  let (attributes, ns_id, t') := e.attrs.foldl buildAttrStep ([], none, t)
  (XNode.tag (ns_id.or (t'.find_namespace e.pfx)) e.localName
    (if attributes.isEmpty then none else some attributes), t')

/-- The builder's loop state: tree, ancestor stack (head = top), cursor. -/
structure BState where
  tree : FlatTree
  node_stack : List Node
  current_node : Node
deriving DecidableEq

/-- One iteration of the event loop in `read`. -/
def step (s : BState) (e : Event) : BState :=
  match e with
  | .start d =>
    let (xnode, t1) := build_tag s.tree d
    let (n, t2) := s.current_node.push t1 xnode
    ⟨t2, s.current_node :: s.node_stack, n⟩
  | .endTag localName px =>
    let ns_id := s.tree.find_namespace px
    if s.current_node.compare_name s.tree ns_id localName then
      match s.node_stack with
      | [] => s
      | top :: rest => ⟨s.tree, rest, top⟩
    else s
  | .empty d =>
    let (xnode, t1) := build_tag s.tree d
    let (_, t2) := s.current_node.push t1 xnode
    ⟨t2, s.node_stack, s.current_node⟩
  | .text content =>
    let (_, t2) := s.current_node.push s.tree (.text content)
    ⟨t2, s.node_stack, s.current_node⟩
  | .comment content =>
    let (_, t2) := s.current_node.push s.tree (.comment content)
    ⟨t2, s.node_stack, s.current_node⟩
  | .pi target content =>
    let data := if content = "" then none else some content.trim
    let (_, t2) := s.current_node.push s.tree (.pi target data)
    ⟨t2, s.node_stack, s.current_node⟩
  | .eof => s
  | .other => s

def readLoop (s : BState) : List Event → BState
  | [] => s
  | e :: rest =>
    match e with
    | .eof => s
    | _ => readLoop (step s e) rest

def initState : BState := ⟨FlatTree.new, [], FlatTree.new.as_node⟩

/-- The loop state of `read` after consuming the event list. -/
def readState (evs : List Event) : BState := readLoop initState evs

/-- `read`: parse an event stream into a `FlatTree`. -/
def read (evs : List Event) : FlatTree := (readState evs).tree

-- ── Specification predicates and concrete inputs ────────────────────

/-- The depth invariant of spec section 3: a non-empty depth vector starts at
1 and never increases by more than one step per position. -/
def DepthOk (D : List Nat) : Prop :=
  D = [] ∨ ((D.get? 0).getD 0 = 1 ∧
    ∀ i < D.length - 1, (D.get? (i + 1)).getD 0 ≤ (D.get? i).getD 0 + 1)

instance (D : List Nat) : Decidable (DepthOk D) := by
  unfold DepthOk
  infer_instance

/-- A handle held by the builder is the sentinel or indexes an existing node. -/
def HandleOk (t : FlatTree) (n : Node) : Prop :=
  n.index = usizeMax ∨ n.index < t.nodes.length

/-- Unconditional builder-loop invariants: parallel arrays, sentinel at the
bottom of the stack (and as cursor when the stack is empty), all handles
live, all stored depths below 256. -/
def Ubase (s : BState) : Prop :=
  s.tree.depth.length = s.tree.nodes.length ∧
  (s.node_stack = [] → s.current_node = ⟨usizeMax⟩) ∧
  (s.node_stack ≠ [] → s.node_stack.getLast? = some ⟨usizeMax⟩) ∧
  HandleOk s.tree s.current_node ∧
  (∀ n ∈ s.node_stack, HandleOk s.tree n) ∧
  (∀ d ∈ s.tree.depth, d < 256)

/-- Builder-loop invariants that hold as long as no depth push has wrapped:
the depth invariant, stack length = cursor depth, the stack entry `k` levels
below the top sits at depth `length - 1 - k`, and the cursor is no deeper
than the last appended node. -/
def Strong (s : BState) : Prop :=
  DepthOk s.tree.depth ∧
  s.node_stack.length = s.current_node.depth s.tree ∧
  (∀ k n, s.node_stack.get? k = some n →
    n.depth s.tree + k + 1 = s.node_stack.length) ∧
  s.current_node.depth s.tree ≤ (s.tree.depth.getLast?).getD 0

/-- Everything the loop maintains: `Strong` survives until the first wrapped
depth push, which leaves a permanent 0 in the (append-only) depth array. -/
def LoopInv (s : BState) : Prop := Ubase s ∧ (Strong s ∨ 0 ∈ s.tree.depth)

/-- Namespace field of a built node. -/
def xnodeNs : XNode → Option Nat
  | .tag ns _ _ => ns
  | _ => none

/-- A tree holding a single namespace-free tag `a`. -/
def exT1 : FlatTree := (FlatTree.new.push (XNode.tag none "a" none)).2

/-- The tree of the sample document `<root><child>text</child><!-- comment --></root>`. -/
def exT4 : FlatTree :=
  read [Event.start ⟨none, "root", []⟩, Event.start ⟨none, "child", []⟩,
    Event.text "text", Event.endTag "child" none,
    Event.comment " comment ", Event.endTag "root" none]

/-- 256 nested `<a>` elements: the 256th depth push wraps to 0. -/
def c9evs : List Event := List.replicate 256 (Event.start ⟨none, "a", []⟩)

/-- After the wrap, two matching closes and one empty tag push depth 255
right after the wrapped depth-0 entry. -/
def c2evs : List Event :=
  c9evs ++ [Event.endTag "a" none, Event.endTag "a" none, Event.empty ⟨none, "b", []⟩]

/-- A default-namespace declaration on `root`, then an unprefixed empty
`child` element. -/
def c3evs : List Event :=
  [Event.start ⟨none, "root", [("xmlns", "u")]⟩, Event.empty ⟨none, "child", []⟩]

-- ── Helper lemmas: list access ──────────────────────────────────────

theorem getD_append_lt (D : List Nat) (v : Nat) (i : Nat) (h : i < D.length) :
    (((D ++ [v]).get? i).getD 0) = ((D.get? i).getD 0) := by
  rw [List.get?_append h]

theorem getD_append_len (D : List Nat) (v : Nat) :
    (((D ++ [v]).get? D.length).getD 0) = v := by
  rw [List.get?_concat_length]
  rfl

theorem dAt_eq (t : FlatTree) (i : Nat) : dAt t i = (t.depth.get? i).getD 0 := rfl

-- ── Helper lemmas: effect of the mutating operations ────────────────

theorem push_spec (n : Node) (t : FlatTree) (x : XNode) :
    (n.push t x).1 = ⟨t.nodes.length⟩ ∧
    (n.push t x).2 = { t with nodes := t.nodes ++ [x],
                              depth := t.depth ++ [(n.depth t + 1) % 256] } := by
  constructor
  · simp [Node.push, FlatTree.push_depth]
  · rfl

theorem add_namespace_arrays (t : FlatTree) (p uri : String) :
    ((t.add_namespace p uri).2).nodes = t.nodes ∧
    ((t.add_namespace p uri).2).depth = t.depth := by
  unfold FlatTree.add_namespace
  cases mapLookup t.namespace_map p with
  | none => simp only []; split <;> simp
  | some i => simp

theorem buildAttrStep_arrays (st : List (String × XAttribute) × Option Nat × FlatTree)
    (kv : String × String) :
    (buildAttrStep st kv).2.2.nodes = st.2.2.nodes ∧
    (buildAttrStep st kv).2.2.depth = st.2.2.depth := by
  obtain ⟨am, nid, tr⟩ := st
  unfold buildAttrStep
  by_cases h1 : kv.1 = "xmlns"
  · simp only [h1, if_true]
    exact add_namespace_arrays tr "" kv.2
  · simp only [h1, if_false]
    by_cases h2 : kv.1.startsWith "xmlns:"
    · simp only [h2, if_true]
      exact add_namespace_arrays tr (kv.1.drop 6) kv.2
    · simp [h2]

theorem foldl_attrs_arrays (attrs : List (String × String)) :
    ∀ st : List (String × XAttribute) × Option Nat × FlatTree,
    (attrs.foldl buildAttrStep st).2.2.nodes = st.2.2.nodes ∧
    (attrs.foldl buildAttrStep st).2.2.depth = st.2.2.depth := by
  induction attrs with
  | nil => intro st; simp
  | cons kv rest ih =>
    intro st
    have h1 := buildAttrStep_arrays st kv
    have h2 := ih (buildAttrStep st kv)
    simp only [List.foldl_cons]
    exact ⟨h2.1.trans h1.1, h2.2.trans h1.2⟩

theorem build_tag_snd (t : FlatTree) (e : TagData) :
    (build_tag t e).2 = (e.attrs.foldl buildAttrStep ([], none, t)).2.2 := by
  unfold build_tag
  rcases e.attrs.foldl buildAttrStep ([], none, t) with ⟨a, b, c⟩
  rfl

theorem build_tag_arrays (t : FlatTree) (e : TagData) :
    (build_tag t e).2.nodes = t.nodes ∧ (build_tag t e).2.depth = t.depth := by
  rw [build_tag_snd]
  exact foldl_attrs_arrays e.attrs ([], none, t)

-- ── Helper lemmas: node depths ──────────────────────────────────────

theorem depth_congr (t t' : FlatTree) (n : Node)
    (hl : t'.nodes.length = t.nodes.length) (hd : t'.depth = t.depth) :
    n.depth t' = n.depth t := by
  simp [Node.depth, dAt, FlatTree.len, hl, hd]

theorem depth_lt_256 (t : FlatTree) (n : Node)
    (hpar : t.depth.length = t.nodes.length)
    (h256 : ∀ d ∈ t.depth, d < 256) : n.depth t < 256 := by
  unfold Node.depth
  split
  · omega
  · rename_i h
    simp only [Bool.or_eq_true, decide_eq_true_eq, Node.is_sentinel, beq_iff_eq,
      not_or, FlatTree.len] at h
    have hi : n.index < t.depth.length := by omega
    rcases List.get?_eq_get hi with hg
    rw [dAt_eq, hg]
    exact h256 _ (List.get_mem t.depth _ _)

theorem depth_zero_of_empty (t : FlatTree) (n : Node)
    (hE : t.nodes = []) (h : HandleOk t n) : n.depth t = 0 := by
  rcases h with h | h
  · simp [Node.depth, Node.is_sentinel, h]
  · rw [hE] at h; simp at h

theorem depth_append_stable (t t' : FlatTree) (n : Node) (x : XNode) (v : Nat)
    (hn : t'.nodes = t.nodes ++ [x]) (hd : t'.depth = t.depth ++ [v])
    (hpar : t.depth.length = t.nodes.length) (h : HandleOk t n) :
    n.depth t' = n.depth t := by
  unfold Node.depth
  by_cases hs : n.is_sentinel
  · simp [hs]
  · rcases h with h | h
    · simp [Node.is_sentinel, h] at hs
    · have hlt' : n.index < t'.nodes.length := by
        rw [hn]; simp; omega
      simp only [hs, Bool.false_or, FlatTree.len]
      rw [if_neg (by simp; omega), if_neg (by simp; omega)]
      rw [dAt_eq, dAt_eq, hd]
      exact getD_append_lt t.depth v n.index (by omega)

theorem depth_new_node (t t' : FlatTree) (x : XNode) (v : Nat)
    (hn : t'.nodes = t.nodes ++ [x]) (hd : t'.depth = t.depth ++ [v])
    (hpar : t.depth.length = t.nodes.length) (hlen : t.nodes.length < usizeMax) :
    Node.depth ⟨t.nodes.length⟩ t' = v := by
  unfold Node.depth
  rw [if_neg]
  · rw [dAt_eq, hd, ← hpar]
    exact getD_append_len t.depth v
  · simp only [Node.is_sentinel, beq_iff_eq, Bool.or_eq_true, decide_eq_true_eq,
      FlatTree.len, hn, not_or]
    refine ⟨by omega, by simp⟩

theorem depthOk_append (D : List Nat) (v : Nat) (hD : DepthOk D)
    (hv : D = [] → v = 1)
    (hle : D ≠ [] → v ≤ (D.getLast?).getD 0 + 1) : DepthOk (D ++ [v]) := by
  rcases hD with hE | ⟨h0, hadj⟩
  · subst hE
    right
    refine ⟨by simp [hv rfl], ?_⟩
    intro i hi
    simp at hi
  · right
    have hNE : D ≠ [] := by
      intro hE
      rw [hE] at h0; simp at h0
    have hLpos : 0 < D.length := List.length_pos.mpr hNE
    constructor
    · rw [getD_append_lt D v 0 hLpos]; exact h0
    · intro i hi
      simp only [List.length_append, List.length_singleton] at hi
      by_cases hlast : i + 1 < D.length
      · rw [getD_append_lt D v (i + 1) hlast, getD_append_lt D v i (by omega)]
        exact hadj i (by omega)
      · have hieq : i + 1 = D.length := by omega
        have hi' : i = D.length - 1 := by omega
        rw [hieq, getD_append_len, getD_append_lt D v i (by omega), hi']
        have hgl : D.getLast? = D.get? (D.length - 1) := by
          rw [List.getLast?_eq_get? D]
        rw [hgl] at hle
        exact hle hNE

theorem getLast?_append_one (D : List Nat) (v : Nat) :
    (D ++ [v]).getLast? = some v := List.getLast?_concat D

-- ── Helper lemmas: unfolding one builder step ───────────────────────

theorem step_start (s : BState) (d : TagData) :
    step s (.start d) =
      ⟨(s.current_node.push (build_tag s.tree d).2 (build_tag s.tree d).1).2,
        s.current_node :: s.node_stack,
        (s.current_node.push (build_tag s.tree d).2 (build_tag s.tree d).1).1⟩ := by
  unfold step
  rcases hbt : build_tag s.tree d with ⟨xn, t1⟩
  rcases hp : s.current_node.push t1 xn with ⟨n2, t2⟩
  simp [hbt, hp]

theorem step_empty (s : BState) (d : TagData) :
    step s (.empty d) =
      ⟨(s.current_node.push (build_tag s.tree d).2 (build_tag s.tree d).1).2,
        s.node_stack, s.current_node⟩ := by
  unfold step
  rcases hbt : build_tag s.tree d with ⟨xn, t1⟩
  rcases hp : s.current_node.push t1 xn with ⟨n2, t2⟩
  simp [hbt, hp]

theorem step_text (s : BState) (c : String) :
    step s (.text c) =
      ⟨(s.current_node.push s.tree (.text c)).2, s.node_stack, s.current_node⟩ := by
  unfold step
  rcases hp : s.current_node.push s.tree (XNode.text c) with ⟨n2, t2⟩
  simp [hp]

theorem step_comment (s : BState) (c : String) :
    step s (.comment c) =
      ⟨(s.current_node.push s.tree (.comment c)).2, s.node_stack, s.current_node⟩ := by
  unfold step
  rcases hp : s.current_node.push s.tree (XNode.comment c) with ⟨n2, t2⟩
  simp [hp]

theorem step_pi (s : BState) (tg c : String) :
    step s (.pi tg c) =
      ⟨(s.current_node.push s.tree
          (.pi tg (if c = "" then none else some c.trim))).2,
        s.node_stack, s.current_node⟩ := by
  unfold step
  rcases hp : s.current_node.push s.tree
    (XNode.pi tg (if c = "" then none else some c.trim)) with ⟨n2, t2⟩
  simp [hp]

theorem step_end_stay (s : BState) (l : String) (px : Option String)
    (h : s.current_node.compare_name s.tree (s.tree.find_namespace px) l = false) :
    step s (.endTag l px) = s := by
  unfold step
  simp [h]

theorem step_end_pop (s : BState) (l : String) (px : Option String)
    (h : s.current_node.compare_name s.tree (s.tree.find_namespace px) l = true)
    (top : Node) (rest : List Node) (hstk : s.node_stack = top :: rest) :
    step s (.endTag l px) = ⟨s.tree, rest, top⟩ := by
  unfold step
  simp [h, hstk]

theorem step_end_empty (s : BState) (l : String) (px : Option String)
    (hstk : s.node_stack = []) : step s (.endTag l px) = s := by
  unfold step
  by_cases h : s.current_node.compare_name s.tree (s.tree.find_namespace px) l
  · simp [h, hstk]
  · simp [h]

-- ── Preservation of the loop invariant ──────────────────────────────


theorem push_preserves (t0 : FlatTree) (stk : List Node) (cur : Node)
    (t1 : FlatTree) (x : XNode)
    (hN : t1.nodes = t0.nodes) (hD : t1.depth = t0.depth)
    (hInv : LoopInv ⟨t0, stk, cur⟩) (hlen : t0.nodes.length < usizeMax) :
    LoopInv ⟨(cur.push t1 x).2, stk, cur⟩ ∧
    LoopInv ⟨(cur.push t1 x).2, cur :: stk, (cur.push t1 x).1⟩ := by
  obtain ⟨⟨hpar, hU3, hU5, hHc, hHs, h256⟩, hSor⟩ := hInv
  dsimp only at hpar hU3 hU5 hHc hHs h256 hSor
  have hps := push_spec cur t1 x
  have hdc : cur.depth t1 = cur.depth t0 :=
    depth_congr t0 t1 cur (by rw [hN]) hD
  have ht2n : (cur.push t1 x).2.nodes = t0.nodes ++ [x] := by
    rw [hps.2]; simp [hN]
  have ht2d : (cur.push t1 x).2.depth = t0.depth ++ [(cur.depth t0 + 1) % 256] := by
    rw [hps.2]; simp [hD, hdc]
  have hidx : (cur.push t1 x).1 = ⟨t0.nodes.length⟩ := hps.1.trans (by rw [hN])
  have hHok : ∀ n : Node, HandleOk t0 n → HandleOk (cur.push t1 x).2 n := by
    intro n h
    rcases h with h | h
    · exact Or.inl h
    · right; rw [ht2n]; simp; omega
  have hstab : ∀ n : Node, HandleOk t0 n →
      n.depth (cur.push t1 x).2 = n.depth t0 := fun n h =>
    depth_append_stable t0 _ n x _ ht2n ht2d hpar h
  have hparity2 : (cur.push t1 x).2.depth.length = (cur.push t1 x).2.nodes.length := by
    rw [ht2n, ht2d]; simp [hpar]
  have h2562 : ∀ dd ∈ (cur.push t1 x).2.depth, dd < 256 := by
    rw [ht2d]
    intro dd hdd
    rcases List.mem_append.mp hdd with hdd | hdd
    · exact h256 dd hdd
    · have : (cur.depth t0 + 1) % 256 < 256 := Nat.mod_lt _ (by omega)
      simp at hdd
      omega
  have hUbA : Ubase ⟨(cur.push t1 x).2, stk, cur⟩ :=
    ⟨hparity2, hU3, hU5, hHok cur hHc, fun n hn => hHok n (hHs n hn), h2562⟩
  have hUbB : Ubase ⟨(cur.push t1 x).2, cur :: stk, (cur.push t1 x).1⟩ := by
    refine ⟨hparity2, by simp, ?_, ?_, ?_, h2562⟩
    · intro _
      show (cur :: stk).getLast? = some ⟨usizeMax⟩
      cases stk with
      | nil =>
        have hc := hU3 rfl
        rw [hc]
        rfl
      | cons b l =>
        rw [List.getLast?_cons_cons]
        exact hU5 (by simp)
    · show HandleOk _ (cur.push t1 x).1
      rw [hidx]
      right
      rw [ht2n]
      simp
    · intro n hn
      rcases List.mem_cons.mp hn with rfl | hn
      · exact hHok n hHc
      · exact hHok n (hHs n hn)
  rcases hSor with hS | h0
  swap
  · constructor
    · exact ⟨hUbA, Or.inr (by rw [ht2d]; exact List.mem_append.mpr (Or.inl h0))⟩
    · exact ⟨hUbB, Or.inr (by rw [ht2d]; exact List.mem_append.mpr (Or.inl h0))⟩
  obtain ⟨hDok, hS2, hS3, hS4⟩ := hS
  dsimp only at hDok hS2 hS3 hS4
  by_cases hdc255 : cur.depth t0 = 255
  · have hv0 : (cur.depth t0 + 1) % 256 = 0 := by rw [hdc255]
    have hmem : (0 : Nat) ∈ (cur.push t1 x).2.depth := by
      rw [ht2d, hv0]
      exact List.mem_append.mpr (Or.inr (by simp))
    exact ⟨⟨hUbA, Or.inr hmem⟩, ⟨hUbB, Or.inr hmem⟩⟩
  have hdlt : cur.depth t0 < 256 := depth_lt_256 t0 cur hpar h256
  have hv : (cur.depth t0 + 1) % 256 = cur.depth t0 + 1 := Nat.mod_eq_of_lt (by omega)
  have hDok2 : DepthOk (cur.push t1 x).2.depth := by
    rw [ht2d, hv]
    refine depthOk_append t0.depth _ hDok ?_ ?_
    · intro hE
      have hnodesE : t0.nodes = [] := by
        rw [hE] at hpar
        exact List.length_eq_zero.mp hpar.symm
      rw [depth_zero_of_empty t0 cur hnodesE hHc]
    · intro _
      omega
  have hlast2 : (((cur.push t1 x).2.depth.getLast?).getD 0) = cur.depth t0 + 1 := by
    rw [ht2d, hv, getLast?_append_one]
    rfl
  have hnewd : Node.depth ⟨t0.nodes.length⟩ (cur.push t1 x).2 = cur.depth t0 + 1 := by
    have h := depth_new_node t0 (cur.push t1 x).2 x ((cur.depth t0 + 1) % 256)
      ht2n ht2d hpar hlen
    rw [hv] at h
    exact h
  constructor
  · refine ⟨hUbA, Or.inl ⟨hDok2, ?_, ?_, ?_⟩⟩
    · show stk.length = cur.depth (cur.push t1 x).2
      rw [hstab cur hHc]
      exact hS2
    · intro k n hk
      show n.depth (cur.push t1 x).2 + k + 1 = stk.length
      rw [hstab n (hHs n (List.get?_mem hk))]
      exact hS3 k n hk
    · show cur.depth (cur.push t1 x).2 ≤ _
      rw [hstab cur hHc, hlast2]
      omega
  · refine ⟨hUbB, Or.inl ⟨hDok2, ?_, ?_, ?_⟩⟩
    · show (cur :: stk).length = ((cur.push t1 x).1).depth (cur.push t1 x).2
      rw [hidx]
      rw [show (⟨t0.nodes.length⟩ : Node).depth (cur.push t1 x).2 =
        Node.depth ⟨t0.nodes.length⟩ (cur.push t1 x).2 from rfl, hnewd]
      simp only [List.length_cons]
      omega
    · intro k n hk
      show n.depth (cur.push t1 x).2 + k + 1 = (cur :: stk).length
      cases k with
      | zero =>
        rw [List.get?_cons_zero] at hk
        injection hk with hk
        subst hk
        rw [hstab cur hHc]
        simp only [List.length_cons]
        omega
      | succ k =>
        rw [List.get?_cons_succ] at hk
        have h3 := hS3 k n hk
        rw [hstab n (hHs n (List.get?_mem hk))]
        simp only [List.length_cons]
        omega
    · show ((cur.push t1 x).1).depth (cur.push t1 x).2 ≤ _
      rw [hidx]
      rw [show (⟨t0.nodes.length⟩ : Node).depth (cur.push t1 x).2 =
        Node.depth ⟨t0.nodes.length⟩ (cur.push t1 x).2 from rfl, hnewd, hlast2]

theorem pop_preserves (t0 : FlatTree) (cur top : Node) (rest : List Node)
    (hInv : LoopInv ⟨t0, top :: rest, cur⟩) :
    LoopInv ⟨t0, rest, top⟩ := by
  obtain ⟨⟨hpar, hU3, hU5, hHc, hHs, h256⟩, hSor⟩ := hInv
  dsimp only at hpar hU3 hU5 hHc hHs h256 hSor
  have hHtop : HandleOk t0 top := hHs top (by simp)
  have hUb : Ubase ⟨t0, rest, top⟩ := by
    refine ⟨hpar, ?_, ?_, hHtop, fun n hn => hHs n (by simp [hn]), h256⟩
    · intro hrest
      dsimp only at hrest
      subst hrest
      have h5 := hU5 (by simp)
      rw [show ([top] : List Node).getLast? = some top from rfl] at h5
      injection h5
    · intro hrest
      dsimp only at hrest ⊢
      cases rest with
      | nil => exact absurd rfl hrest
      | cons b l =>
        have h5 := hU5 (by simp)
        rw [List.getLast?_cons_cons] at h5
        exact h5
  rcases hSor with hS | h0
  swap
  · exact ⟨hUb, Or.inr h0⟩
  obtain ⟨hDok, hS2, hS3, hS4⟩ := hS
  dsimp only at hDok hS2 hS3 hS4
  have htopd : top.depth t0 = rest.length := by
    have h0 := hS3 0 top rfl
    simp only [List.length_cons] at h0
    omega
  refine ⟨hUb, Or.inl ⟨hDok, ?_, ?_, ?_⟩⟩
  · show rest.length = top.depth t0
    omega
  · intro k n hk
    show n.depth t0 + k + 1 = rest.length
    have h3 := hS3 (k + 1) n (by simpa using hk)
    simp only [List.length_cons] at h3
    omega
  · show top.depth t0 ≤ (t0.depth.getLast?).getD 0
    simp only [List.length_cons] at hS2
    omega

theorem push_len (n : Node) (t : FlatTree) (x : XNode) :
    (n.push t x).2.nodes.length = t.nodes.length + 1 := by
  rw [(push_spec n t x).2]
  simp

theorem step_len (s : BState) (e : Event) :
    (step s e).tree.nodes.length ≤ s.tree.nodes.length + 1 := by
  cases e with
  | start d =>
    rw [step_start]
    dsimp only
    rw [push_len, (build_tag_arrays s.tree d).1]
  | empty d =>
    rw [step_empty]
    dsimp only
    rw [push_len, (build_tag_arrays s.tree d).1]
  | text c =>
    rw [step_text]
    dsimp only
    rw [push_len]
  | comment c =>
    rw [step_comment]
    dsimp only
    rw [push_len]
  | pi tg c =>
    rw [step_pi]
    dsimp only
    rw [push_len]
  | endTag l px =>
    by_cases h : s.current_node.compare_name s.tree (s.tree.find_namespace px) l
    · cases hstk : s.node_stack with
      | nil => rw [step_end_empty s l px hstk]; omega
      | cons top rest =>
        rw [step_end_pop s l px h top rest hstk]
        dsimp only
        omega
    · rw [step_end_stay s l px (by simpa using h)]; omega
  | eof => exact Nat.le_succ _
  | other => exact Nat.le_succ _

theorem step_inv (s : BState) (e : Event) (hInv : LoopInv s)
    (hlen : s.tree.nodes.length < usizeMax) : LoopInv (step s e) := by
  cases e with
  | start d =>
    rw [step_start]
    exact (push_preserves s.tree s.node_stack s.current_node _ _
      (build_tag_arrays s.tree d).1 (build_tag_arrays s.tree d).2 hInv hlen).2
  | empty d =>
    rw [step_empty]
    exact (push_preserves s.tree s.node_stack s.current_node _ _
      (build_tag_arrays s.tree d).1 (build_tag_arrays s.tree d).2 hInv hlen).1
  | text c =>
    rw [step_text]
    exact (push_preserves s.tree s.node_stack s.current_node s.tree _ rfl rfl hInv hlen).1
  | comment c =>
    rw [step_comment]
    exact (push_preserves s.tree s.node_stack s.current_node s.tree _ rfl rfl hInv hlen).1
  | pi tg c =>
    rw [step_pi]
    exact (push_preserves s.tree s.node_stack s.current_node s.tree _ rfl rfl hInv hlen).1
  | endTag l px =>
    by_cases h : s.current_node.compare_name s.tree (s.tree.find_namespace px) l
    · cases hstk : s.node_stack with
      | nil => rw [step_end_empty s l px hstk]; exact hInv
      | cons top rest =>
        rw [step_end_pop s l px h top rest hstk]
        apply pop_preserves s.tree s.current_node top rest
        rw [← hstk]
        exact hInv
    · rw [step_end_stay s l px (by simpa using h)]
      exact hInv
  | eof => exact hInv
  | other => exact hInv

theorem readLoop_cons_ne (s : BState) (e : Event) (rest : List Event)
    (hne : e ≠ Event.eof) : readLoop s (e :: rest) = readLoop (step s e) rest := by
  cases e
  case eof => exact absurd rfl hne
  all_goals rfl

theorem readLoop_inv (evs : List Event) :
    ∀ s : BState, LoopInv s → s.tree.nodes.length + evs.length ≤ usizeMax →
    LoopInv (readLoop s evs) := by
  induction evs with
  | nil => intro s h _; exact h
  | cons e rest ih =>
    intro s h hlen
    simp only [List.length_cons] at hlen
    by_cases he : e = Event.eof
    · subst he
      exact h
    · rw [readLoop_cons_ne s e rest he]
      exact ih _ (step_inv s e h (by omega))
        (by have := step_len s e; omega)

theorem readLoop_len (evs : List Event) :
    ∀ s : BState, (readLoop s evs).tree.nodes.length ≤ s.tree.nodes.length + evs.length := by
  induction evs with
  | nil => intro s; simp [readLoop]
  | cons e rest ih =>
    intro s
    simp only [List.length_cons]
    by_cases he : e = Event.eof
    · subst he
      simp [readLoop]
    · rw [readLoop_cons_ne s e rest he]
      have h1 := ih (step s e)
      have h2 := step_len s e
      omega

theorem initState_inv : LoopInv initState := by
  refine ⟨⟨rfl, fun _ => rfl, fun h => absurd rfl h, Or.inl rfl, ?_, ?_⟩,
    Or.inl ⟨Or.inl rfl, ?_, ?_, ?_⟩⟩
  · intro n hn
    simp [initState] at hn
  · intro d hd
    simp [initState, FlatTree.new] at hd
  · rfl
  · intro k n hk
    simp [initState] at hk
  · exact Nat.le_refl 0

-- ── Claims ──────────────────────────────────────────────────────────

/-- C4: namespace registration is idempotent with first-write-wins: when a
call to `add_namespace` has returned an id for a prefix, a second call with
the same prefix returns the same id regardless of the uri supplied, and
leaves the whole registry (hence the stored (prefix, uri) entry) unchanged. -/
theorem claim_C4 (t : FlatTree) (p u u' : String) (i : Nat) (t1 : FlatTree)
    (h : t.add_namespace p u = (some i, t1)) :
    t1.add_namespace p u' = (some i, t1) := by
  unfold FlatTree.add_namespace at h
  cases hm : mapLookup t.namespace_map p with
  | some j =>
    rw [hm] at h
    simp only [Prod.mk.injEq, Option.some.injEq] at h
    obtain ⟨h1, h2⟩ := h
    subst h2
    unfold FlatTree.add_namespace
    rw [hm]
    show (some (j % 65536), t) = (some i, t)
    rw [h1]
  | none =>
    rw [hm] at h
    by_cases hc : 65535 < t.namespaces.length
    · rw [if_pos hc] at h
      simp at h
    · rw [if_neg hc] at h
      simp only [Prod.mk.injEq, Option.some.injEq] at h
      obtain ⟨h1, h2⟩ := h
      subst h2
      unfold FlatTree.add_namespace
      dsimp only
      rw [show mapLookup ((p, t.namespaces.length) :: t.namespace_map) p
            = some t.namespaces.length from by simp [mapLookup]]
      show (some (t.namespaces.length % 65536), _) = (some i, _)
      rw [h1]

/-- Witness for C4 at a concrete registry. -/
theorem claim_C4_witness :
    ((FlatTree.new.add_namespace "p" "u").2).add_namespace "p" "v" =
      (some 0, (FlatTree.new.add_namespace "p" "u").2) :=
  claim_C4 FlatTree.new "p" "u" "v" 0 (FlatTree.new.add_namespace "p" "u").2 (by decide)

/-- C5: on an end-tag event whose (local name, resolved namespace) does not
match the current node's stored tag, the builder ignores the event: the
whole state (tree, ancestor stack, cursor) is returned unchanged, and the
step is total (no error is surfaced). -/
theorem claim_C5 (s : BState) (localName : String) (px : Option String)
    (h : s.current_node.compare_name s.tree (s.tree.find_namespace px) localName = false) :
    step s (.endTag localName px) = s :=
  step_end_stay s localName px h

/-- Witness for C5: closing `nope` under an open `root` is a no-op. -/
theorem claim_C5_witness :
    step (readState [Event.start ⟨none, "root", []⟩]) (Event.endTag "nope" none) =
      readState [Event.start ⟨none, "root", []⟩] :=
  claim_C5 (readState [Event.start ⟨none, "root", []⟩]) "nope" none (by decide)

/-- C8: registering an unseen prefix assigns the next id in first-seen order
(the current registry size) while fewer than 65536 prefixes are registered;
at 65536 registered prefixes the call returns `none` and leaves the registry
unchanged, rather than raising an error. -/
theorem claim_C8 (t : FlatTree) (p u : String)
    (hfresh : mapLookup t.namespace_map p = none) :
    (t.namespaces.length ≤ 65535 →
      (t.add_namespace p u).1 = some t.namespaces.length ∧
      (t.add_namespace p u).2.namespaces = t.namespaces ++ [(p, u)] ∧
      (t.add_namespace p u).2.namespace_map = (p, t.namespaces.length) :: t.namespace_map) ∧
    (t.namespaces.length = 65536 → t.add_namespace p u = (none, t)) := by
  constructor
  · intro hcap
    unfold FlatTree.add_namespace
    rw [hfresh]
    dsimp only
    rw [if_neg (show ¬ 65535 < t.namespaces.length by omega)]
    refine ⟨?_, rfl, rfl⟩
    show some (t.namespaces.length % 65536) = some t.namespaces.length
    rw [Nat.mod_eq_of_lt (by omega)]
  · intro hcap
    unfold FlatTree.add_namespace
    rw [hfresh]
    dsimp only
    rw [if_pos (by omega)]

/-- Witness for C8 on the empty registry. -/
theorem claim_C8_witness :
    (FlatTree.new.add_namespace "p" "u").1 = some 0 ∧
    (FlatTree.new.add_namespace "p" "u").2.namespaces = [("p", "u")] :=
  ⟨((claim_C8 FlatTree.new "p" "u" rfl).1 (by decide)).1,
   ((claim_C8 FlatTree.new "p" "u" rfl).1 (by decide)).2.1⟩

/-- C10: `Node::push` computes the child depth as `depth + 1` in unguarded
u8 arithmetic: below depth 255 the appended depth is exactly `depth + 1` and
the returned handle is the new length minus one; at depth 255 no guard
exists and the addition wraps past the u8 range, storing 0. -/
theorem claim_C10 (t : FlatTree) (n : Node) (x : XNode) :
    (n.depth t < 255 →
      (n.push t x).2.depth.getLast? = some (n.depth t + 1) ∧
      (n.push t x).1.index = (n.push t x).2.nodes.length - 1 ∧
      (n.push t x).2.nodes.length = t.nodes.length + 1) ∧
    (n.depth t = 255 → (n.push t x).2.depth.getLast? = some 0) := by
  have hs := push_spec n t x
  constructor
  · intro hlt
    refine ⟨?_, ?_, ?_⟩
    · rw [hs.2]
      simp only
      rw [getLast?_append_one, Nat.mod_eq_of_lt (by omega)]
    · rw [hs.1, hs.2]
      simp
    · rw [hs.2]
      simp
  · intro h255
    rw [hs.2]
    simp only
    rw [getLast?_append_one, h255]

/-- Witness for C10 at a depth-1 node. -/
theorem claim_C10_witness :
    ((Node.mk 0).push exT1 (XNode.text "x")).2.depth.getLast? = some 2 ∧
    ((Node.mk 0).push exT1 (XNode.text "x")).1.index = 1 :=
  ⟨((claim_C10 exT1 ⟨0⟩ (XNode.text "x")).1 (by decide)).1,
   ((claim_C10 exT1 ⟨0⟩ (XNode.text "x")).1 (by decide)).2.1⟩

/-- C2 (amended): for every event sequence whose construction never wraps a
u8 depth push (equivalently, the resulting depth vector contains no 0), the
resulting tree's depth vector satisfies: if non-empty then `depth[0] = 1`,
and every entry exceeds its predecessor by at most one. -/
theorem claim_C2 (evs : List Event) (hlen : evs.length ≤ usizeMax)
    (hnowrap : (0 : Nat) ∉ (read evs).depth) : DepthOk (read evs).depth := by
  have hInv := readLoop_inv evs initState initState_inv
    (by have h0 : initState.tree.nodes.length = 0 := rfl; omega)
  rcases hInv.2 with hS | h0
  · exact hS.1
  · exact absurd h0 hnowrap

/-- Witness for C2 on a small well-formed document. -/
theorem claim_C2_witness :
    ((0 : Nat) ∉ (read [Event.start ⟨none, "root", []⟩, Event.empty ⟨none, "a", []⟩,
        Event.endTag "root" none]).depth) ∧
    DepthOk (read [Event.start ⟨none, "root", []⟩, Event.empty ⟨none, "a", []⟩,
        Event.endTag "root" none]).depth :=
  ⟨by decide, claim_C2 _ (by decide) (by decide)⟩

/-- Counterexample for C2 as frozen: 256 nested opens wrap the u8 depth to 0
at index 255; after two matching closes, one more push stores depth 255 right
after it, violating `depth[i] <= depth[i-1] + 1` at i = 256 (and `DepthOk`). -/
theorem claim_C2_counterexample :
    ¬ DepthOk (read c2evs).depth ∧
    ((read c2evs).depth.get? 255).getD 0 = 0 ∧
    ((read c2evs).depth.get? 256).getD 0 = 255 := by decide

/-- C9 (amended): throughout the event loop, as long as no u8 depth push has
wrapped (no 0 in the depth vector), the ancestor stack length equals the
cursor depth; unconditionally, whenever an end tag matches the current
node's stored tag, the stack is non-empty, so the empty-stack guard in the
end-tag branch never fires. -/
theorem claim_C9 (evs : List Event) (hlen : evs.length ≤ usizeMax) :
    ((0 : Nat) ∉ (readState evs).tree.depth →
      (readState evs).node_stack.length =
        (readState evs).current_node.depth (readState evs).tree) ∧
    (∀ (l : String) (px : Option String),
      (readState evs).current_node.compare_name (readState evs).tree
        ((readState evs).tree.find_namespace px) l = true →
      (readState evs).node_stack ≠ []) := by
  have hInv := readLoop_inv evs initState initState_inv
    (by have h0 : initState.tree.nodes.length = 0 := rfl; omega)
  constructor
  · intro h0
    rcases hInv.2 with hS | hw
    · exact hS.2.1
    · exact absurd hw h0
  · intro l px hcmp hstk
    have hre : readLoop initState evs = readState evs := rfl
    have hc := hInv.1.2.1 hstk
    have hlen2 := readLoop_len evs initState
    rw [hre] at hc hlen2
    have hnone : (readState evs).tree.nodes.get? usizeMax = none := by
      apply List.get?_eq_none.mpr
      have h0 : initState.tree.nodes.length = 0 := rfl
      omega
    rw [hc] at hcmp
    unfold Node.compare_name FlatTree.value at hcmp
    rw [show (⟨usizeMax⟩ : Node).index = usizeMax from rfl, hnone] at hcmp
    exact Bool.false_ne_true hcmp

/-- Witness for C9 on a small well-formed document. -/
theorem claim_C9_witness :
    ((0 : Nat) ∉ (readState [Event.start ⟨none, "root", []⟩]).tree.depth →
      (readState [Event.start ⟨none, "root", []⟩]).node_stack.length =
        (readState [Event.start ⟨none, "root", []⟩]).current_node.depth
          (readState [Event.start ⟨none, "root", []⟩]).tree) ∧
    (∀ (l : String) (px : Option String),
      (readState [Event.start ⟨none, "root", []⟩]).current_node.compare_name
        (readState [Event.start ⟨none, "root", []⟩]).tree
        ((readState [Event.start ⟨none, "root", []⟩]).tree.find_namespace px) l = true →
      (readState [Event.start ⟨none, "root", []⟩]).node_stack ≠ []) :=
  claim_C9 [Event.start ⟨none, "root", []⟩] (by decide)

/-- Counterexample for C9 as frozen: after 256 nested opens the wrapped
cursor reports depth 0 while the ancestor stack holds 256 entries, so stack
length and cursor depth disagree. -/
theorem claim_C9_counterexample :
    (readState c9evs).node_stack.length = 256 ∧
    (readState c9evs).current_node.depth (readState c9evs).tree = 0 := by decide

theorem ancestors_of_parent_none (n : Node) (t : FlatTree) (h : n.parent t = none) :
    n.ancestors t = [] := by
  rw [Node.ancestors.eq_def]
  split
  · rfl
  · rename_i m hm
    rw [h] at hm
    exact absurd hm (by simp)

/-- C6: every navigation query (`depth`, `value`, `parent`, `children`,
`next_sibling`, `prev_sibling`, `ancestors`, `descendants`, `subtree_end`)
on the sentinel handle or on a stale handle (index not below the tree's
length) returns 0/none/empty and never fails; since every query returns the
same constant, a stale handle behaves identically to the sentinel. The
side condition `t.len ≤ usizeMax` is representability of the Rust `Vec`. -/
theorem claim_C6 (t : FlatTree) (n : Node)
    (h : n.index = usizeMax ∨ t.len ≤ n.index) (hsize : t.len ≤ usizeMax) :
    n.depth t = 0 ∧ n.value t = none ∧ n.parent t = none ∧ n.children t = [] ∧
    n.next_sibling t = none ∧ n.prev_sibling t = none ∧ n.ancestors t = [] ∧
    n.descendants t = [] ∧ n.subtree_end t = 0 := by
  have hcond : (n.is_sentinel || decide (t.len ≤ n.index)) = true := by
    rcases h with h | h
    · simp [Node.is_sentinel, h]
    · simp [h]
  have hvalid : n.is_valid t = false := by
    unfold Node.is_valid Node.is_sentinel
    rcases h with h | h
    · simp [h]
    · simp
      intro _
      exact h
  have hdepth : n.depth t = 0 := by
    unfold Node.depth
    rw [if_pos hcond]
  have hvalue : n.value t = none := by
    unfold Node.value FlatTree.value
    apply List.get?_eq_none.mpr
    have hl : t.len = t.nodes.length := rfl
    rcases h with h | h <;> omega
  have hparent : n.parent t = none := by
    unfold Node.parent
    rw [hdepth]
    simp
  refine ⟨hdepth, hvalue, hparent, ?_, ?_, ?_, ?_, ?_, ?_⟩
  · unfold Node.children
    rw [hvalid]
    rfl
  · unfold Node.next_sibling
    rw [hvalid]
    rfl
  · unfold Node.prev_sibling
    rw [hvalid]
    rfl
  · exact ancestors_of_parent_none n t hparent
  · unfold Node.descendants
    rw [hvalid]
    rfl
  · unfold Node.subtree_end
    rw [hvalid]
    rfl

/-- Witness for C6: a stale handle on a one-node tree. -/
theorem claim_C6_witness :
    (Node.mk 5).depth exT1 = 0 ∧ (Node.mk 5).value exT1 = none ∧
    (Node.mk 5).parent exT1 = none ∧ (Node.mk 5).children exT1 = [] ∧
    (Node.mk 5).next_sibling exT1 = none ∧ (Node.mk 5).prev_sibling exT1 = none ∧
    (Node.mk 5).ancestors exT1 = [] ∧ (Node.mk 5).descendants exT1 = [] ∧
    (Node.mk 5).subtree_end exT1 = 0 :=
  claim_C6 exT1 ⟨5⟩ (Or.inr (by decide)) (by decide)

-- ── Helper lemmas: the forward scan of subtree_end ──────────────────

theorem takeWhile_range'_sat (p : Nat → Bool) :
    ∀ (c s j : Nat), s ≤ j →
      j < s + ((List.range' s c).takeWhile p).length → p j = true := by
  intro c
  induction c with
  | zero =>
    intro s j h1 h2
    simp [List.range'] at h2
    omega
  | succ c ih =>
    intro s j h1 h2
    rw [List.range'_succ] at h2
    by_cases hp : p s
    · rw [List.takeWhile_cons, if_pos hp, List.length_cons] at h2
      by_cases hj : j = s
      · rw [hj]; exact hp
      · exact ih (s + 1) j (by omega) (by omega)
    · rw [List.takeWhile_cons, if_neg hp] at h2
      simp at h2
      omega

theorem takeWhile_range'_le (p : Nat → Bool) (c s : Nat) :
    ((List.range' s c).takeWhile p).length ≤ c := by
  have h := (List.takeWhile_sublist p (l := List.range' s c)).length_le
  rwa [List.length_range'] at h

theorem takeWhile_range'_stop (p : Nat → Bool) :
    ∀ (c s : Nat), ((List.range' s c).takeWhile p).length < c →
      p (s + ((List.range' s c).takeWhile p).length) = false := by
  intro c
  induction c with
  | zero =>
    intro s h
    omega
  | succ c ih =>
    intro s h
    rw [List.range'_succ] at h ⊢
    by_cases hp : p s
    · rw [List.takeWhile_cons, if_pos hp, List.length_cons] at h ⊢
      have h2 := ih (s + 1) (by omega)
      rw [show s + (((List.range' (s + 1) c).takeWhile p).length + 1)
            = s + 1 + ((List.range' (s + 1) c).takeWhile p).length by omega]
      exact h2
    · rw [List.takeWhile_cons, if_neg hp] at h ⊢
      simpa using hp

theorem is_valid_spec (t : FlatTree) (n : Node) :
    n.is_valid t = true ↔ (¬ n.index = usizeMax ∧ n.index < t.nodes.length) := by
  unfold Node.is_valid Node.is_sentinel FlatTree.len
  simp

theorem depth_of_valid (t : FlatTree) (n : Node) (hv : n.is_valid t = true) :
    n.depth t = dAt t n.index := by
  obtain ⟨h1, h2⟩ := (is_valid_spec t n).mp hv
  unfold Node.depth
  rw [if_neg]
  simp only [Node.is_sentinel, Bool.or_eq_true, beq_iff_eq, decide_eq_true_eq,
    FlatTree.len, not_or]
  exact ⟨h1, by omega⟩

theorem subtree_end_spec (t : FlatTree) (n : Node) (hv : n.is_valid t = true) :
    n.index < n.subtree_end t ∧ n.subtree_end t ≤ t.len ∧
    (∀ j, n.index < j → j < n.subtree_end t → dAt t n.index < dAt t j) ∧
    (n.subtree_end t < t.len → ¬ (dAt t n.index < dAt t (n.subtree_end t))) := by
  have hlt : n.index < t.nodes.length := ((is_valid_spec t n).mp hv).2
  unfold Node.subtree_end
  rw [if_neg (by simp [hv])]
  dsimp only
  set p : Nat → Bool := fun i => decide (dAt t n.index < dAt t i) with hp
  set k := ((List.range' (n.index + 1) (t.len - (n.index + 1))).takeWhile p).length with hk
  have hkc : k ≤ t.len - (n.index + 1) := takeWhile_range'_le p _ _
  have hlen : t.len = t.nodes.length := rfl
  refine ⟨by omega, by omega, ?_, ?_⟩
  · intro j hj1 hj2
    have := takeWhile_range'_sat p (t.len - (n.index + 1)) (n.index + 1) j
      (by omega) (by omega)
    rw [hp] at this
    exact of_decide_eq_true this
  · intro he hcon
    have hstop := takeWhile_range'_stop p (t.len - (n.index + 1)) (n.index + 1)
      (by omega)
    rw [hp] at hstop
    exact (of_decide_eq_false hstop) hcon

-- ── Helper lemmas: the backward scan of prev_sibling ────────────────

theorem prevAux_run (t : FlatTree) (d : Nat) :
    ∀ (i k : Nat), k ≤ i → (∀ j, k < j → j ≤ i → d < dAt t j) → dAt t k = d →
    prevAux t d i = some k := by
  intro i
  induction i with
  | zero =>
    intro k h1 h2 h3
    have hk0 : k = 0 := by omega
    subst hk0
    unfold prevAux
    rw [h3]
    simp
  | succ i ih =>
    intro k h1 h2 h3
    by_cases hk : k = i + 1
    · subst hk
      unfold prevAux
      rw [h3]
      simp
    · have hgt : d < dAt t (i + 1) := h2 (i + 1) (by omega) (by omega)
      unfold prevAux
      rw [if_neg (by omega), if_neg (by omega)]
      exact ih k (by omega) (fun j hj1 hj2 => h2 j hj1 (by omega)) h3

theorem prevAux_sound (t : FlatTree) (d : Nat) :
    ∀ (i k : Nat), prevAux t d i = some k →
    k ≤ i ∧ dAt t k = d ∧ ∀ j, k < j → j ≤ i → d < dAt t j := by
  intro i
  induction i with
  | zero =>
    intro k h
    unfold prevAux at h
    split at h
    · exact absurd h (by simp)
    · split at h
      · rename_i h1 h2
        simp only [Option.some.injEq] at h
        subst h
        exact ⟨Nat.le_refl 0, h2, fun j hj1 hj2 => by omega⟩
      · exact absurd h (by simp)
  | succ i ih =>
    intro k h
    unfold prevAux at h
    split at h
    · exact absurd h (by simp)
    · rename_i h1
      split at h
      · rename_i h2
        simp only [Option.some.injEq] at h
        subst h
        exact ⟨Nat.le_refl _, h2, fun j hj1 hj2 => by omega⟩
      · rename_i h2
        obtain ⟨hk1, hk2, hk3⟩ := ih k h
        refine ⟨by omega, hk2, ?_⟩
        intro j hj1 hj2
        by_cases hji : j = i + 1
        · subst hji
          omega
        · exact hk3 j hj1 (by omega)

/-- C7: on any tree satisfying the section-3 depth invariants (with the
parallel-arrays and `Vec`-representability structure conditions), the two
sibling scans are mutual inverses wherever they are defined. -/
theorem claim_C7 (t : FlatTree)
    (hpar : t.depth.length = t.nodes.length) (hsize : t.nodes.length ≤ usizeMax)
    (hinv : DepthOk t.depth) (n m : Node) (hv : n.is_valid t = true) :
    (n.next_sibling t = some m → m.prev_sibling t = some n) ∧
    (n.prev_sibling t = some m → m.next_sibling t = some n) := by
  have hlen : t.len = t.nodes.length := rfl
  obtain ⟨hnx, hnlt⟩ := (is_valid_spec t n).mp hv
  have hdofv := depth_of_valid t n hv
  constructor
  · intro h
    unfold Node.next_sibling at h
    rw [if_neg (by simp [hv])] at h
    dsimp only at h
    split at h
    · rename_i hcond
      simp only [Bool.and_eq_true, decide_eq_true_eq] at hcond
      obtain ⟨helt, heq⟩ := hcond
      simp only [Option.some.injEq] at h
      have hmi : m.index = n.subtree_end t := by rw [← h]
      obtain ⟨hse1, hse2, hse3, hse4⟩ := subtree_end_spec t n hv
      have hmvalid : m.is_valid t = true := by
        rw [is_valid_spec, hmi]
        omega
      have hdm : m.depth t = n.depth t := by
        rw [depth_of_valid t m hmvalid, hmi, heq]
      unfold Node.prev_sibling
      rw [if_neg (by
        simp only [hmvalid, Bool.not_true, Bool.false_or, beq_iff_eq, hmi]
        omega)]
      rw [hdm, hmi]
      have hrun : prevAux t (n.depth t) (n.subtree_end t - 1) = some n.index := by
        apply prevAux_run
        · omega
        · intro j hj1 hj2
          rw [hdofv]
          exact hse3 j hj1 (by omega)
        · exact hdofv.symm
      rw [hrun]
      rfl
    · exact absurd h (by simp)
  · intro h
    unfold Node.prev_sibling at h
    by_cases hi0 : n.index = 0
    · rw [if_pos (by simp [hi0])] at h
      exact absurd h (by simp)
    · rw [if_neg (by simp [hv, hi0])] at h
      simp only [Option.map_eq_some'] at h
      obtain ⟨k, hk, hm⟩ := h
      have hmi : m.index = k := by rw [← hm]
      obtain ⟨hk1, hk2, hk3⟩ := prevAux_sound t (n.depth t) (n.index - 1) k hk
      have hmvalid : m.is_valid t = true := by
        rw [is_valid_spec, hmi]
        omega
      obtain ⟨hse1, hse2, hse3, hse4⟩ := subtree_end_spec t m hmvalid
      rw [hmi] at hse1 hse3 hse4
      have hdm : m.depth t = n.depth t := by
        rw [depth_of_valid t m hmvalid, hmi]
        exact hk2
      have hend : m.subtree_end t = n.index := by
        rcases Nat.lt_trichotomy (m.subtree_end t) n.index with hlt | heq | hgt
        · exfalso
          have hj := hk3 (m.subtree_end t) (by omega) (by omega)
          have hstop := hse4 (by omega)
          rw [hk2] at hstop
          exact hstop hj
        · exact heq
        · exfalso
          have hj := hse3 n.index (by omega) (by omega)
          rw [hk2, hdofv] at hj
          omega
      unfold Node.next_sibling
      rw [if_neg (by simp [hmvalid])]
      dsimp only
      rw [if_pos]
      · rw [hend]
      · simp only [Bool.and_eq_true, decide_eq_true_eq]
        rw [hend, hdm, hdofv]
        exact ⟨by omega, rfl⟩

/-- Witness for C7 on the sample tree with depths `[1, 2, 3, 2]`. -/
theorem claim_C7_witness :
    (Node.mk 3).prev_sibling exT4 = some (Node.mk 1) ∧
    (Node.mk 1).next_sibling exT4 = some (Node.mk 3) :=
  ⟨(claim_C7 exT4 (by decide) (by decide) (by decide) ⟨1⟩ ⟨3⟩ (by decide)).1 (by decide),
   (claim_C7 exT4 (by decide) (by decide) (by decide) ⟨3⟩ ⟨1⟩ (by decide)).2 (by decide)⟩

-- ── Helper lemmas: the find_node scan ───────────────────────────────

theorem findNsAux_some (tns : Option Nat) (tname : String) :
    ∀ (l : List XNode) (i j : Nat), findNsAux tns tname l i = some ⟨j⟩ →
      i ≤ j ∧ (∃ x, l.get? (j - i) = some x ∧ matchesB tns tname x = true) ∧
      ∀ (mi : Nat) (x : XNode), mi < j - i → l.get? mi = some x →
        matchesB tns tname x = false := by
  intro l
  induction l with
  | nil =>
    intro i j h
    simp [findNsAux] at h
  | cons a rest ih =>
    intro i j h
    unfold findNsAux at h
    split at h
    · rename_i hmB
      simp only [Option.some.injEq, Node.mk.injEq] at h
      subst h
      refine ⟨Nat.le_refl _, ⟨a, by simp, hmB⟩, ?_⟩
      intro mi x hm hx
      omega
    · rename_i hmB
      obtain ⟨h1, ⟨x, hx1, hx2⟩, h3⟩ := ih (i + 1) j h
      refine ⟨by omega, ⟨x, ?_, hx2⟩, ?_⟩
      · rw [show j - i = (j - (i + 1)) + 1 by omega]
        simpa using hx1
      · intro mi y hm hy
        cases mi with
        | zero =>
          simp only [List.get?_cons_zero, Option.some.injEq] at hy
          subst hy
          exact Bool.not_eq_true _ ▸ hmB
        | succ mi =>
          exact h3 mi y (by omega) (by simpa using hy)

theorem findNsAux_none (tns : Option Nat) (tname : String) :
    ∀ (l : List XNode) (i : Nat), findNsAux tns tname l i = none →
      ∀ (mi : Nat) (x : XNode), l.get? mi = some x →
        matchesB tns tname x = false := by
  intro l
  induction l with
  | nil =>
    intro i _ mi x hx
    simp at hx
  | cons a rest ih =>
    intro i h mi x hx
    unfold findNsAux at h
    split at h
    · exact absurd h (by simp)
    · rename_i hmB
      cases mi with
      | zero =>
        simp only [List.get?_cons_zero, Option.some.injEq] at hx
        subst hx
        exact Bool.not_eq_true _ ▸ hmB
      | succ mi =>
        exact ih (i + 1) h mi x (by simpa using hx)

/-- C1 (amended): on a search string containing `:`, `find_node` splits it
into (prefix, local), resolves the prefix through the registry — an
unregistered prefix resolving to the absent namespace id — and returns the
first `Tag` whose local name and (optional) namespace id both match; so an
unregistered prefix matches namespace-free tags instead of returning no
match. -/
theorem claim_C1 (t : FlatTree) (s p l : String) (rest : List String)
    (hc : strContains s ':' = true) (hsplit : strSplit s ':' = p :: l :: rest) :
    t.find_node s = t.find_namespaced_node_by_name (t.find_namespace (some p)) l ∧
    (∀ j : Nat, t.find_namespaced_node_by_name (t.find_namespace (some p)) l = some ⟨j⟩ →
      (∃ x, t.nodes.get? j = some x ∧ matchesB (t.find_namespace (some p)) l x = true) ∧
      ∀ (mi : Nat) (x : XNode), mi < j → t.nodes.get? mi = some x →
        matchesB (t.find_namespace (some p)) l x = false) ∧
    (t.find_namespaced_node_by_name (t.find_namespace (some p)) l = none →
      ∀ (mi : Nat) (x : XNode), t.nodes.get? mi = some x →
        matchesB (t.find_namespace (some p)) l x = false) := by
  refine ⟨?_, ?_, ?_⟩
  · unfold FlatTree.find_node
    rw [if_pos hc, hsplit]
  · intro j h
    obtain ⟨h1, h2, h3⟩ := findNsAux_some _ _ t.nodes 0 j h
    constructor
    · simpa using h2
    · intro mi x hm hx
      exact h3 mi x (by omega) hx
  · intro h
    exact findNsAux_none _ _ t.nodes 0 h

/-- Witness for C1: searching `p:a` goes through the namespaced scan. -/
theorem claim_C1_witness :
    exT1.find_node "p:a" =
      exT1.find_namespaced_node_by_name (exT1.find_namespace (some "p")) "a" :=
  (claim_C1 exT1 "p:a" "p" "a" [] (by decide) (by decide)).1

/-- Counterexample for C1 as frozen: prefix `p` is not registered, yet
`find_node "p:a"` returns the namespace-free tag `a` instead of no match. -/
theorem claim_C1_counterexample :
    exT1.find_namespace (some "p") = none ∧ exT1.find_node "p:a" = some ⟨0⟩ := by
  decide

-- ── Helper lemmas: build_tag attribute processing ───────────────────

theorem buildAttrStep_xmlns (am : List (String × XAttribute)) (nid : Option Nat)
    (tr : FlatTree) (kv : String × String) (h : kv.1 = "xmlns") :
    buildAttrStep (am, nid, tr) kv =
      (am, (tr.add_namespace "" kv.2).1, (tr.add_namespace "" kv.2).2) := by
  unfold buildAttrStep
  dsimp only
  rw [if_pos h]

theorem buildAttrStep_decl (am : List (String × XAttribute)) (nid : Option Nat)
    (tr : FlatTree) (kv : String × String) (h1 : ¬ kv.1 = "xmlns")
    (h2 : kv.1.startsWith "xmlns:" = true) :
    buildAttrStep (am, nid, tr) kv =
      (am, nid, (tr.add_namespace (kv.1.drop 6) kv.2).2) := by
  unfold buildAttrStep
  dsimp only
  rw [if_neg h1, if_pos h2]

theorem buildAttrStep_plain (am : List (String × XAttribute)) (nid : Option Nat)
    (tr : FlatTree) (kv : String × String) (h1 : ¬ kv.1 = "xmlns")
    (h2 : ¬ kv.1.startsWith "xmlns:" = true) :
    buildAttrStep (am, nid, tr) kv =
      (mapInsert am (format_tag_name kv.1).2
        ⟨tr.find_namespace (format_tag_name kv.1).1, kv.2⟩, nid, tr) := by
  unfold buildAttrStep
  dsimp only
  rw [if_neg h1, if_neg h2]

theorem add_namespace_len (tr : FlatTree) (p u : String) :
    ((tr.add_namespace p u).2).namespaces.length ≤ tr.namespaces.length + 1 := by
  unfold FlatTree.add_namespace
  cases hm : mapLookup tr.namespace_map p with
  | none =>
    dsimp only
    split
    · simp
    · simp
  | some j => simp

theorem add_namespace_mono (tr : FlatTree) (p u q : String) (j : Nat)
    (h : mapLookup tr.namespace_map q = some j) :
    mapLookup ((tr.add_namespace p u).2).namespace_map q = some j := by
  unfold FlatTree.add_namespace
  cases hm : mapLookup tr.namespace_map p with
  | none =>
    dsimp only
    split
    · exact h
    · show mapLookup ((p, tr.namespaces.length) :: tr.namespace_map) q = some j
      unfold mapLookup
      split
      · rename_i hpq
        rw [hpq, h] at hm
        exact absurd hm (by simp)
      · exact h
  | some _ => exact h

theorem add_namespace_find_mono (tr : FlatTree) (p u q : String) (i : Nat)
    (h : tr.find_namespace (some q) = some i) :
    ((tr.add_namespace p u).2).find_namespace (some q) = some i := by
  unfold FlatTree.find_namespace at h ⊢
  dsimp only at h ⊢
  cases hm : mapLookup tr.namespace_map q with
  | none =>
    rw [hm] at h
    simp at h
  | some j =>
    rw [hm] at h
    simp only [Option.map_some'] at h
    rw [add_namespace_mono tr p u q j hm]
    simpa using h

theorem add_namespace_self (tr : FlatTree) (p u : String) :
    (∀ i, (tr.add_namespace p u).1 = some i →
      ((tr.add_namespace p u).2).find_namespace (some p) = some i) ∧
    (tr.namespaces.length ≤ 65535 → ((tr.add_namespace p u).1).isSome) := by
  unfold FlatTree.add_namespace
  cases hm : mapLookup tr.namespace_map p with
  | none =>
    dsimp only
    by_cases hc : 65535 < tr.namespaces.length
    · rw [if_pos hc]
      exact ⟨fun i h => by simp at h, fun h => by omega⟩
    · rw [if_neg hc]
      constructor
      · intro i h
        simp only [Option.some.injEq] at h
        subst h
        unfold FlatTree.find_namespace
        dsimp only
        rw [show mapLookup ((p, tr.namespaces.length) :: tr.namespace_map) p
              = some tr.namespaces.length from by simp [mapLookup]]
        simp
      · intro _
        simp
  | some j =>
    constructor
    · intro i h
      simp only [Option.some.injEq] at h
      subst h
      unfold FlatTree.find_namespace
      dsimp only
      rw [hm]
      simp
    · intro _
      simp

theorem fold_attrs_props (attrs : List (String × String)) :
    ∀ (am : List (String × XAttribute)) (nid : Option Nat) (tr : FlatTree),
    (∀ q j, mapLookup tr.namespace_map q = some j →
      mapLookup ((attrs.foldl buildAttrStep (am, nid, tr)).2.2).namespace_map q = some j) ∧
    ((attrs.foldl buildAttrStep (am, nid, tr)).2.2).namespaces.length ≤
      tr.namespaces.length + attrs.length ∧
    ((∀ kv ∈ attrs, kv.1 ≠ "xmlns") →
      (attrs.foldl buildAttrStep (am, nid, tr)).2.1 = nid) ∧
    ((∀ i, nid = some i → tr.find_namespace (some "") = some i) →
      ∀ i, (attrs.foldl buildAttrStep (am, nid, tr)).2.1 = some i →
        ((attrs.foldl buildAttrStep (am, nid, tr)).2.2).find_namespace (some "") = some i) ∧
    (tr.namespaces.length + attrs.length ≤ 65536 → nid.isSome = true →
      ((attrs.foldl buildAttrStep (am, nid, tr)).2.1).isSome = true) ∧
    (tr.namespaces.length + attrs.length ≤ 65536 → (∃ kv ∈ attrs, kv.1 = "xmlns") →
      ((attrs.foldl buildAttrStep (am, nid, tr)).2.1).isSome = true) := by
  induction attrs with
  | nil =>
    intro am nid tr
    simp only [List.foldl_nil, List.length_nil]
    refine ⟨fun q j h => h, by omega, ?_, ?_, ?_, ?_⟩
    · first
      | trivial
      | exact fun _ => rfl
    · first
      | trivial
      | exact fun hQ i h => hQ i h
    · first
      | trivial
      | exact fun _ h => h
    · rintro _ ⟨kv, hkv, _⟩
      simp at hkv
  | cons kv rest ih =>
    intro am nid tr
    simp only [List.foldl_cons, List.length_cons]
    by_cases h1 : kv.1 = "xmlns"
    · rw [buildAttrStep_xmlns am nid tr kv h1]
      obtain ⟨K1, K2, K3, K4, K5, K6⟩ :=
        ih am (tr.add_namespace "" kv.2).1 (tr.add_namespace "" kv.2).2
      have hlen := add_namespace_len tr "" kv.2
      have hself := add_namespace_self tr "" kv.2
      refine ⟨fun q j h => K1 q j (add_namespace_mono tr "" kv.2 q j h),
        by omega, ?_, ?_, ?_, ?_⟩
      · intro hno
        exact absurd h1 (hno kv (by simp))
      · intro _
        exact K4 (fun i h => hself.1 i h)
      · intro hcap _
        exact K5 (by omega) (hself.2 (by omega))
      · intro hcap _
        exact K5 (by omega) (hself.2 (by omega))
    · by_cases h2 : kv.1.startsWith "xmlns:" = true
      · rw [buildAttrStep_decl am nid tr kv h1 h2]
        obtain ⟨K1, K2, K3, K4, K5, K6⟩ :=
          ih am nid (tr.add_namespace (kv.1.drop 6) kv.2).2
        have hlen := add_namespace_len tr (kv.1.drop 6) kv.2
        refine ⟨fun q j h => K1 q j (add_namespace_mono tr (kv.1.drop 6) kv.2 q j h),
          by omega, ?_, ?_, ?_, ?_⟩
        · intro hno
          exact K3 (fun kv' hkv' => hno kv' (by simp [hkv']))
        · intro hQ
          exact K4 (fun i h => add_namespace_find_mono tr _ kv.2 "" i (hQ i h))
        · intro hcap hsome
          exact K5 (by omega) hsome
        · intro hcap hex
          apply K6 (by omega)
          obtain ⟨kv', hkv', hk⟩ := hex
          rcases List.mem_cons.mp hkv' with rfl | hm
          · exact absurd hk h1
          · exact ⟨kv', hm, hk⟩
      · rw [buildAttrStep_plain am nid tr kv h1 h2]
        obtain ⟨K1, K2, K3, K4, K5, K6⟩ :=
          ih (mapInsert am (format_tag_name kv.1).2
            ⟨tr.find_namespace (format_tag_name kv.1).1, kv.2⟩) nid tr
        refine ⟨K1, by omega, ?_, K4, fun hcap hs => K5 (by omega) hs, ?_⟩
        · intro hno
          exact K3 (fun kv' hkv' => hno kv' (by simp [hkv']))
        · intro hcap hex
          apply K6 (by omega)
          obtain ⟨kv', hkv', hk⟩ := hex
          rcases List.mem_cons.mp hkv' with rfl | hm
          · exact absurd hk h1
          · exact ⟨kv', hm, hk⟩

theorem build_tag_eq (t : FlatTree) (e : TagData) :
    build_tag t e = (XNode.tag
      (((e.attrs.foldl buildAttrStep ([], none, t)).2.1).or
        (((e.attrs.foldl buildAttrStep ([], none, t)).2.2).find_namespace e.pfx))
      e.localName
      (if (e.attrs.foldl buildAttrStep ([], none, t)).1.isEmpty then none
       else some (e.attrs.foldl buildAttrStep ([], none, t)).1),
     (e.attrs.foldl buildAttrStep ([], none, t)).2.2) := rfl

/-- C3 (amended): the namespace id of a built tag node is: the id of the
tag's own `xmlns` declaration if it carries one (whenever the registry has
capacity for the event's declarations), and otherwise the registry's id for
the tag's explicit prefix after the event's own `xmlns:<p>` declarations are
processed (absent when the prefix is unregistered); an unprefixed tag with
no own `xmlns` always gets the absent id, even when a default-namespace
binding exists in the registry. -/
theorem claim_C3 (t : FlatTree) (e : TagData) :
    ((∀ kv ∈ e.attrs, kv.1 ≠ "xmlns") →
      xnodeNs (build_tag t e).1 = (build_tag t e).2.find_namespace e.pfx) ∧
    (e.pfx = none → (∀ kv ∈ e.attrs, kv.1 ≠ "xmlns") →
      xnodeNs (build_tag t e).1 = none) ∧
    ((∃ kv ∈ e.attrs, kv.1 = "xmlns") → t.namespaces.length + e.attrs.length ≤ 65536 →
      xnodeNs (build_tag t e).1 = (build_tag t e).2.find_namespace (some "")) := by
  obtain ⟨K1, K2, K3, K4, K5, K6⟩ := fold_attrs_props e.attrs [] none t
  have hns : xnodeNs (build_tag t e).1 =
      ((e.attrs.foldl buildAttrStep ([], none, t)).2.1).or
        (((e.attrs.foldl buildAttrStep ([], none, t)).2.2).find_namespace e.pfx) := by
    rw [build_tag_eq]
    rfl
  have hsnd : (build_tag t e).2 = (e.attrs.foldl buildAttrStep ([], none, t)).2.2 :=
    build_tag_snd t e
  refine ⟨?_, ?_, ?_⟩
  · intro hno
    rw [hns, K3 hno, hsnd]
    rfl
  · intro hpfx hno
    rw [hns, K3 hno, hpfx]
    rfl
  · intro hex hcap
    have hs := K6 hcap hex
    rcases ho : (e.attrs.foldl buildAttrStep ([], none, t)).2.1 with _ | i
    · rw [ho] at hs
      simp at hs
    · have hfind := K4 (fun i h => by simp at h) i ho
      rw [hns, ho, hsnd, hfind]
      rfl

/-- Witness for C3: an unprefixed tag with no attributes gets no namespace. -/
theorem claim_C3_witness :
    xnodeNs (build_tag FlatTree.new ⟨none, "x", []⟩).1 = none :=
  (claim_C3 FlatTree.new ⟨none, "x", []⟩).2.1 rfl (by simp)

/-- Counterexample for C3 as frozen: after `<root xmlns="u">`, the default
namespace is bound (id 0), but the unprefixed `<child/>` is built with the
absent namespace id, not the default-namespace id. -/
theorem claim_C3_counterexample :
    (read c3evs).value 1 = some (XNode.tag none "child" none) ∧
    (read c3evs).find_namespace (some "") = some 0 := by decide
